import Mathlib

/-
  Verification development for the configuration-parser core of the
  letsencrypt/certbot repository:

  * letsencrypt/client/plugins/nginx/parser.py  (NginxParser, case_i,
    fnmatch_to_re, find_dir, _get_include_path, _parse_file, _get_ifmod,
    add_dir, _set_locations, _find_config_root, strip_dir, get_aug_path)
  * certbot-apache/certbot_apache/_internal/apacheparser.py
    (ApacheParserNode / ApacheDirectiveNode / ApacheBlockNode)

  The Python code drives an Augeas instance through string path
  expressions and POSIX regexes.  We embed the tree data Augeas holds,
  the fragment of its regexp language that the code emits, and the
  methods themselves as pure functions with explicit state.
-/

/- ===================================================================
   Part 1: the Augeas `=~ regexp(...)` matcher, restricted to the
   fragment of patterns the source code builds: plain characters, backslash
   escapes, two-character classes `[Uu]` (as produced by case_i), `.`,
   postfix `*`, grouping parentheses and top-level alternation `|`
   (as in the Include pattern "(...)|(...)").  Augeas regexp comparison
   is anchored: the whole node value must match.
   =================================================================== -/

/-- One element of a linearized regular expression: a character class
(also used for single literals and escaped literals), the wildcard `.`,
and their starred variants. -/
inductive PElem where
  | cls : List Char → PElem
  | any : PElem
  | anyRun : PElem
  | clsRun : List Char → PElem
  deriving DecidableEq, Repr

/-- Anchored matching of a sequence of pattern elements against a
character list.  A starred element absorbs any number of characters
permitted by its class. -/
def elemsMatch : List PElem → List Char → Bool
  | [], s => s.isEmpty
  | .cls cs :: ps, s =>
    match s with
    | [] => false
    | c :: s2 => cs.contains c && elemsMatch ps s2
  | .any :: ps, s =>
    match s with
    | [] => false
    | _ :: s2 => elemsMatch ps s2
  | .anyRun :: ps, s =>
    (List.range (s.length + 1)).any (fun k => elemsMatch ps (s.drop k))
  | .clsRun cs :: ps, s =>
    (List.range (s.length + 1)).any
      (fun k => (s.take k).all (fun c => cs.contains c) && elemsMatch ps (s.drop k))

/-- Prepend an element to the first (leftmost) alternation branch of a
partial parse result. -/
def parseCons (e : PElem) : Option (List (List PElem)) → Option (List (List PElem))
  | some (b :: bs) => some ((e :: b) :: bs)
  | _ => none

/-- Commit a pending pattern element (one that a following `*` could
still upgrade) onto a partial parse result. -/
def pushPend : Option PElem → Option (List (List PElem)) → Option (List (List PElem))
  | none, r => r
  | some e, r => parseCons e r

/-- Upgrade a pattern element to its starred form. -/
def starUp : PElem → PElem
  | .cls cs => .clsRun cs
  | .any => .anyRun
  | .anyRun => .anyRun
  | .clsRun cs => .clsRun cs

/-- Left-to-right parser for the regexp fragment.  The first argument
holds the most recently read element, kept pending so that a following
`*` can star it.  `(` and `)` only group in the emitted patterns (the
alternation is always at top level between fully parenthesized
alternatives), so they reset the pending element and are otherwise
skipped; `|` starts a new alternation branch. -/
def parseAux : Option PElem → List Char → Option (List (List PElem))
  | pend, [] => pushPend pend (some [[]])
  | pend, '*' :: rest =>
    match pend with
    | none => none
    | some e => parseAux (some (starUp e)) rest
  | pend, '|' :: rest => pushPend pend ((parseAux none rest).map (fun bs => [] :: bs))
  | pend, '(' :: rest => pushPend pend (parseAux none rest)
  | pend, ')' :: rest => pushPend pend (parseAux none rest)
  | pend, '\\' :: c :: rest => pushPend pend (parseAux (some (.cls [c])) rest)
  | _, ['\\'] => none
  | pend, '[' :: a :: b :: ']' :: rest => pushPend pend (parseAux (some (.cls [a, b])) rest)
  | _, '[' :: _ => none
  | _, ']' :: _ => none
  | pend, '.' :: rest => pushPend pend (parseAux (some .any) rest)
  | pend, c :: rest => pushPend pend (parseAux (some (.cls [c])) rest)

/-- Parse a full pattern into its alternation branches. -/
def parseRe (p : List Char) : Option (List (List PElem)) := parseAux none p

/-- Augeas `value =~ regexp(pat)` comparison: anchored match of `s`
against pattern `pat`; malformed patterns match nothing. -/
def reMatch (pat s : String) : Bool :=
  match parseRe pat.data with
  | some bs => bs.any (fun b => elemsMatch b s.data)
  | none => false

/- ===================================================================
   Part 2: the pure string helpers of nginx/parser.py.
   =================================================================== -/

/-- Python 2.7 `re.escape`: every character outside [a-zA-Z0-9] is
preceded by a backslash.  (The CPython special case for NUL does not
arise for any input in this code base.) -/
def reEscape (s : String) : String :=
  ⟨s.data.flatMap (fun c => if c.isAlphanum then [c] else ['\\', c])⟩

/-- `case_i` (parser.py:318-331): escapes the string and then replaces
every alphabetic character c of the escaped string by the two-element
character class [upper(c)lower(c)], producing a case-insensitive regex
for Augeas. -/
def case_i (s : String) : String :=
  ⟨(reEscape s).data.flatMap
    (fun c => if c.isAlpha then ['[', c.toUpper, c.toLower, ']'] else [c])⟩

/-- `NginxParser.fnmatch_to_re` (parser.py:225-247): converts an
fnmatch-style glob to an Augeas regex, character by character:
`.` becomes an escaped literal, `*` becomes `.*`, `?` becomes `.`,
every other character passes through unchanged. -/
def fnmatch_to_re (s : String) : String :=
  ⟨s.data.flatMap (fun c =>
    if c = '.' then ['\\', '.']
    else if c = '*' then ['.', '*']
    else if c = '?' then ['.']
    else [c])⟩

/-- `strip_dir` (parser.py:343-359): directory part of a file path,
via the index of the last slash; returns "" when there is no slash or
the only slash is at position 0. -/
def lastSlashIdx : List Char → Option Nat
  | [] => none
  | c :: rest =>
    match lastSlashIdx rest with
    | some i => some (i + 1)
    | none => if c = '/' then some 0 else none

/-- See `lastSlashIdx`; this is Python `path.rfind("/")` followed by
`path[:index+1] if index > 0 else ""`. -/
def strip_dir (p : String) : String :=
  match lastSlashIdx p.data with
  | some i => if 0 < i then ⟨p.data.take (i + 1)⟩ else ""
  | none => ""

/-- Python `str.startswith`, over the character lists. -/
def chLeads : List Char → List Char → Bool
  | [], _ => true
  | _ :: _, [] => false
  | p :: ps, c :: cs => p = c && chLeads ps cs

/-- `arg.startswith(pre)`. -/
def strStartsWith (s pre : String) : Bool := chLeads pre.data s.data

/-- Python `str.endswith`, over the character lists. -/
def strEndsWith (s suf : String) : Bool := chLeads suf.data.reverse s.data.reverse

/-- `os.path.join(a, b)` for the shapes used here (b never absolute). -/
def joinPath (a b : String) : String :=
  if strStartsWith b "/" then b
  else if strEndsWith a "/" then a ++ b else a ++ "/" ++ b

/-- Splitting a path (or include argument) on "/", Python `split("/")`. -/
def chSplit (sep : Char) : List Char → List (List Char)
  | [] => [[]]
  | c :: rest =>
    let r := chSplit sep rest
    if c = sep then [] :: r
    else
      match r with
      | [] => [[c]]
      | h :: t => (c :: h) :: t

/-- `arg.split("/")` as a list of strings. -/
def pathSplit (s : String) : List String := (chSplit '/' s.data).map (fun l => ⟨l⟩)

-- A few sanity checks of the matcher on the emitted fragment.
example : reMatch (case_i "Include") "include" = true := by decide
example : reMatch (case_i "Include") "INCLUDE" = true := by decide
example : reMatch (case_i "Include") "includex" = false := by decide
example : reMatch (fnmatch_to_re "*.conf") "a.conf" = true := by decide
example : reMatch (fnmatch_to_re "*.conf") "a.json" = false := by decide
example : reMatch ("(" ++ case_i "Include" ++ ")|(" ++ case_i "IncludeOptional" ++ ")")
    "includeoptional" = true := by decide
example : reMatch ("(" ++ case_i "Include" ++ ")|(" ++ case_i "IncludeOptional" ++ ")")
    "server_name" = false := by decide
example : strip_dir "/etc/nginx/nginx.conf" = "/etc/nginx/" := by decide
example : strip_dir "nofolder" = "" := by decide
example : strip_dir "/toplevel" = "" := by decide

/- ===================================================================
   Part 3: semantics of the patterns case_i and fnmatch_to_re emit.
   =================================================================== -/

/-- The set of characters a case_i position accepts: both cases of an
alphabetic character, the character itself otherwise. -/
def caseClassOf (c : Char) : List Char :=
  if c.isAlpha then [c.toUpper, c.toLower] else [c]

/-- The chunk of regex text case_i emits for one input character. -/
def chunkCI (c : Char) : List Char :=
  if c.isAlphanum then
    (if c.isAlpha then ['[', c.toUpper, c.toLower, ']'] else [c])
  else ['\\', c]

theorem case_i_data (s : String) : (case_i s).data = s.data.flatMap chunkCI := by
  show (s.data.flatMap fun c => if c.isAlphanum then [c] else ['\\', c]).flatMap _ =
    s.data.flatMap chunkCI
  induction s.data with
  | nil => rfl
  | cons c l ih =>
    simp only [List.flatMap_cons, List.flatMap_append, ih]
    congr 1
    by_cases h1 : c.isAlphanum
    · simp [chunkCI, h1]
    · have h2 : c.isAlpha = false := by
        revert h1; unfold Char.isAlphanum; intro h1
        cases h : c.isAlpha <;> simp_all
      simp [chunkCI, h1, h2]

theorem parseAux_default (pend : Option PElem) (c : Char) (rest : List Char)
    (h1 : c ≠ '*') (h2 : c ≠ '|') (h3 : c ≠ '(') (h4 : c ≠ ')') (h5 : c ≠ '\\')
    (h6 : c ≠ '[') (h7 : c ≠ ']') (h8 : c ≠ '.') :
    parseAux pend (c :: rest) = pushPend pend (parseAux (some (.cls [c])) rest) := by
  rw [parseAux.eq_def]
  split <;> simp_all

theorem contains_mem (l : List Char) (c : Char) : l.contains c = true ↔ c ∈ l :=
  List.elem_iff

theorem parseAux_chunks (l : List Char) (pend : Option PElem) :
    parseAux pend (l.flatMap chunkCI) =
      pushPend pend (some [l.map (fun c => PElem.cls (caseClassOf c))]) := by
  induction l generalizing pend with
  | nil => rfl
  | cons c l ih =>
    rw [List.flatMap_cons]
    by_cases h1 : c.isAlphanum
    · by_cases h2 : c.isAlpha
      · have hchunk : chunkCI c = ['[', c.toUpper, c.toLower, ']'] := by
          simp [chunkCI, h1, h2]
        rw [hchunk]
        show parseAux pend ('[' :: c.toUpper :: c.toLower :: ']' :: l.flatMap chunkCI) = _
        rw [show parseAux pend ('[' :: c.toUpper :: c.toLower :: ']' :: l.flatMap chunkCI)
            = pushPend pend (parseAux (some (.cls [c.toUpper, c.toLower])) (l.flatMap chunkCI))
            from rfl, ih]
        simp [pushPend, parseCons, caseClassOf, h2]
      · have hchunk : chunkCI c = [c] := by simp [chunkCI, h1, h2]
        rw [hchunk, List.singleton_append]
        have hdigit : c.isDigit := by
          revert h1; unfold Char.isAlphanum; intro h1
          cases h : c.isDigit <;> simp_all
        have hne : ∀ x : Char, x ∈ ['*', '|', '(', ')', '\\', '[', ']', '.'] → c ≠ x := by
          intro x hx hcx
          subst hcx
          revert hdigit; unfold Char.isDigit
          fin_cases hx <;> decide
        rw [parseAux_default pend c _ (hne _ (by simp)) (hne _ (by simp)) (hne _ (by simp))
          (hne _ (by simp)) (hne _ (by simp)) (hne _ (by simp)) (hne _ (by simp))
          (hne _ (by simp)), ih]
        simp [pushPend, parseCons, caseClassOf, h2]
    · have h2 : c.isAlpha = false := by
        revert h1; unfold Char.isAlphanum; intro h1
        cases h : c.isAlpha <;> simp_all
      have hchunk : chunkCI c = ['\\', c] := by simp [chunkCI, h1]
      rw [hchunk]
      show parseAux pend ('\\' :: c :: l.flatMap chunkCI) = _
      rw [show parseAux pend ('\\' :: c :: l.flatMap chunkCI)
          = pushPend pend (parseAux (some (.cls [c])) (l.flatMap chunkCI)) from rfl, ih]
      simp [pushPend, parseCons, caseClassOf, h2]

theorem parseRe_case_i (n : String) :
    parseRe (case_i n).data = some [n.data.map (fun c => PElem.cls (caseClassOf c))] := by
  rw [parseRe, case_i_data, parseAux_chunks]
  rfl

theorem elemsMatch_clsMap (l : List (List Char)) (s : List Char) :
    elemsMatch (l.map PElem.cls) s = true ↔ List.Forall₂ (fun cs c => c ∈ cs) l s := by
  induction l generalizing s with
  | nil =>
    cases s <;> simp [elemsMatch]
  | cons cs l ih =>
    cases s with
    | nil => simp [elemsMatch]
    | cons c s =>
      simp [elemsMatch, ih, contains_mem, and_comm]

theorem reMatch_case_i (n s : String) :
    reMatch (case_i n) s = true ↔
      List.Forall₂ (fun c x => x ∈ caseClassOf c) n.data s.data := by
  rw [reMatch, parseRe_case_i]
  simp only [List.any_cons, List.any_nil, Bool.or_false]
  have h : List.map (fun c => PElem.cls (caseClassOf c)) n.data
      = List.map PElem.cls (List.map caseClassOf n.data) := by
    simp [List.map_map, Function.comp]
  rw [h, elemsMatch_clsMap]
  exact List.forall₂_map_left_iff

theorem elemsMatch_lits (l : List Char) (s : List Char) :
    elemsMatch (l.map (fun c => PElem.cls [c])) s = true ↔ s = l := by
  induction l generalizing s with
  | nil => cases s <;> simp [elemsMatch]
  | cons c l ih =>
    cases s with
    | nil => simp [elemsMatch]
    | cons x s => simp [elemsMatch, ih, contains_mem, eq_comm (a := x)]

theorem elemsMatch_anyRun (s : List Char) : elemsMatch [PElem.anyRun] s = true := by
  simp only [elemsMatch, List.any_eq_true, List.mem_range]
  exact ⟨s.length, Nat.lt_succ_self _, by simp [elemsMatch]⟩

/-- `s` is obtained from `n` by replacing characters with case variants:
position by position, equal up to upper/lower case on alphabetic
characters and exactly equal elsewhere. -/
def caseVariant (n s : String) : Prop :=
  List.Forall₂ (fun c x => x ∈ caseClassOf c) n.data s.data

theorem reMatch_fnmatch_site (s : String) :
    reMatch (fnmatch_to_re "site.conf") s = true ↔ s = "site.conf" := by
  have hp : parseRe (fnmatch_to_re "site.conf").data
      = some [("site.conf".data.map (fun c => PElem.cls [c]))] := by decide
  rw [reMatch, hp]
  simp only [List.any_cons, List.any_nil, Bool.or_false]
  rw [elemsMatch_lits]
  exact ⟨fun h => String.ext h, fun h => by rw [h]⟩

theorem reMatch_fnmatch_q (s : String) :
    reMatch (fnmatch_to_re "?") s = true ↔ s.length = 1 := by
  have hp : parseRe (fnmatch_to_re "?").data = some [[PElem.any]] := by decide
  rw [reMatch, hp]
  simp only [List.any_cons, List.any_nil, Bool.or_false]
  show elemsMatch [PElem.any] s.data = true ↔ s.data.length = 1
  generalize s.data = l
  match l with
  | [] => simp [elemsMatch]
  | [c] => simp [elemsMatch]
  | c :: d :: rest => simp [elemsMatch]

/-- C1 (corrected).  The glob translation `fnmatch_to_re` is a
character-by-character homomorphism sending `.` to an escaped literal,
`*` to a pattern matching any run of characters, `?` to a pattern
matching exactly one character, and passing every other character
through unchanged — but case-SENSITIVELY: translating "site.conf"
yields a pattern matching exactly "site.conf" and no other string.
The case-insensitive [Uu]-class expansion lives in the separate
function case_i (applied to directive names, never composed with
fnmatch_to_re): case_i("site.conf") is the pattern that matches
exactly the case variants "site.conf", "Site.Conf", "SITE.CONF", and
no string of different length or with different non-alphabetic
characters. -/
theorem claim_C1 :
    (∀ a b : String, fnmatch_to_re (a ++ b) = fnmatch_to_re a ++ fnmatch_to_re b)
    ∧ (∀ c : Char, fnmatch_to_re ⟨[c]⟩ =
        if c = '.' then "\\." else if c = '*' then ".*"
        else if c = '?' then "." else ⟨[c]⟩)
    ∧ (∀ s : String, reMatch (fnmatch_to_re "*") s = true)
    ∧ (∀ s : String, reMatch (fnmatch_to_re "?") s = true ↔ s.length = 1)
    ∧ (∀ s : String, reMatch (fnmatch_to_re "site.conf") s = true ↔ s = "site.conf")
    ∧ (∀ s : String, reMatch (case_i "site.conf") s = true ↔ caseVariant "site.conf" s)
    ∧ reMatch (case_i "site.conf") "Site.Conf" = true
    ∧ reMatch (case_i "site.conf") "SITE.CONF" = true := by
  refine ⟨?_, ?_, ?_, reMatch_fnmatch_q, reMatch_fnmatch_site, ?_, by decide, by decide⟩
  · intro a b
    apply String.ext
    show ((a ++ b).data.flatMap _) = ((⟨_⟩ : String) ++ (⟨_⟩ : String)).data
    simp [fnmatch_to_re]
  · intro c
    by_cases h1 : c = '.'
    · subst h1; rfl
    · by_cases h2 : c = '*'
      · subst h2; rfl
      · by_cases h3 : c = '?'
        · subst h3; rfl
        · rw [if_neg h1, if_neg h2, if_neg h3]
          apply String.ext
          simp [fnmatch_to_re, h1, h2, h3]
  · intro s
    have hp : parseRe (fnmatch_to_re "*").data = some [[PElem.anyRun]] := by decide
    rw [reMatch, hp]
    simp [elemsMatch_anyRun s.data]
  · intro s
    exact reMatch_case_i "site.conf" s

/-- C1 counterexample: the glob-to-pattern translation actually used on
include segments (fnmatch_to_re) is not emitted in a case-insensitive
form: its translation of "site.conf" fails to match "Site.Conf" and
"SITE.CONF". -/
theorem claim_C1_counterexample :
    fnmatch_to_re "site.conf" = "site\\.conf"
    ∧ reMatch (fnmatch_to_re "site.conf") "Site.Conf" = false
    ∧ reMatch (fnmatch_to_re "site.conf") "SITE.CONF" = false := by decide

/- ===================================================================
   Part 4: the Augeas tree space of the nginx parser.  The Httpd lens
   renders a configuration file as a sequence of nodes: a directive is
   a node labelled "directive" whose value is the directive name and
   whose children are its "arg" nodes; a section (block) is a node
   labelled with the section name, carrying its own arg children and a
   nested node sequence.
   =================================================================== -/

mutual
/-- One node of a parsed configuration file. -/
inductive HNode where
  | directive (name : String) (args : List String)
  | hsection (name : String) (args : List String) (children : HForest)
  deriving DecidableEq, Repr
/-- A sequence of sibling nodes, preserving file order. -/
inductive HForest where
  | nil
  | cons (head : HNode) (tail : HForest)
  deriving DecidableEq, Repr
end

mutual
/-- `aug.match (start//*[self::directive=~regexp(dpat)]/arg)` — and,
when a value pattern is given, `.../*[self::arg=~regexp(apat)]` —
restricted to one node: the values of the (matching) arg children of
every descendant directive whose name matches dpat, in document
order. -/
def nodeDirMatches (dpat : String) (apat : Option String) : HNode → List String
  | .directive nm args =>
    if reMatch dpat nm then
      match apat with
      | none => args
      | some ap => args.filter (fun a => reMatch ap a)
    else []
  | .hsection _ _ ch => forestDirMatches dpat apat ch
/-- See `nodeDirMatches`. -/
def forestDirMatches (dpat : String) (apat : Option String) : HForest → List String
  | .nil => []
  | .cons n t => nodeDirMatches dpat apat n ++ forestDirMatches dpat apat t
end

/-- The include pattern find_dir builds (parser.py:139-140):
"(case_i(Include))|(case_i(IncludeOptional))". -/
def inclRegex : String :=
  "(" ++ case_i "Include" ++ ")|(" ++ case_i "IncludeOptional" ++ ")"

mutual
/-- `aug.match (start//*[self::directive=~regexp(inclRegex)]/*[label()=arg])`
followed by `aug.get` on every match: the argument values of the
include directives under one node, in document order. -/
def nodeInclArgs : HNode → List String
  | .directive nm args => if reMatch inclRegex nm then args else []
  | .hsection _ _ ch => forestInclArgs ch
/-- See `nodeInclArgs`. -/
def forestInclArgs : HForest → List String
  | .nil => []
  | .cons n t => nodeInclArgs n ++ forestInclArgs t
end

/-- The filesystem together with the parse oracle: an ordered list of
existing files with their parse results; `none` stands for a file that
cannot be read or parsed (IOError / pyparsing.ParseException). -/
abbrev Disk := List (String × Option HForest)

/-- One segment of an Augeas file-path expression: a literal, or the
`* [label()=~regexp(R)]` form that _get_include_path substitutes for a
segment containing glob characters. -/
inductive Seg where
  | lit (s : String)
  | rx (r : String)
  deriving DecidableEq, Repr

/-- Include-argument resolution of `NginxParser._get_include_path`
(parser.py:194-199).  Note the `conf/` server-root rewrite sits in an
elif branch that can never fire: an argument starting with "conf/"
does not start with "/", so the first branch has already consumed
it. -/
def resolveIncludeArg (root cur arg : String) : String :=
  if ¬ (strStartsWith arg "/") then cur ++ arg
  else if strStartsWith arg "conf/" then root ++ arg.drop 4
  else arg

/-- `"*" in split or "?" in split` (parser.py:208-212). -/
def hasGlobChar (s : String) : Bool :=
  s.data.any (fun c => c = '*' || c = '?')

/-- `_get_include_path` (parser.py:205-223) after resolution: split
the argument on "/", convert every segment containing a glob character
into the Augeas label-regexp form via fnmatch_to_re, and drop one
trailing slash (directory include).  The `* [label()=~regexp(R)]`
wrapper is kept structured as `Seg.rx R`. -/
def argToAugSegs (arg : String) : List Seg :=
  let arg2 := if strEndsWith arg "/" then arg.dropRight 1 else arg
  (pathSplit arg2).map (fun s => if hasGlobChar s then Seg.rx (fnmatch_to_re s) else Seg.lit s)

/-- Does a concrete file path match a path expression?  Segment by
segment: literals by string equality, converted glob segments by the
regexp matcher. -/
def segMatches : Seg → String → Bool
  | .lit s, comp => s == comp
  | .rx r, comp => reMatch r comp

/-- See `segMatches`. -/
def pathMatchesSegs (segs : List Seg) (p : String) : Bool :=
  let ps := pathSplit p
  ps.length == segs.length && (List.zip segs ps).all (fun z => segMatches z.1 z.2)

/-- Serialization of a path expression back to the string find_dir
passes around (the quotes of the regexp wrapper elided). -/
def segStr : Seg → String
  | .lit s => s
  | .rx r => "* [label()=~regexp(" ++ r ++ ")]"

/-- See `segStr`. -/
def augPathStr (segs : List Seg) : String :=
  String.intercalate "/" (segs.map segStr)

/-- `strip_dir(start[6:])` (parser.py:150-152): the directory find_dir
hands to _get_include_path as cur_dir for every include found under
the start expression. -/
def curDirOf (segs : List Seg) : String := strip_dir (augPathStr segs)

/-- `self.parsed`: the mapping of concrete file paths to parsed trees. -/
abbrev ParsedMap := List (String × HForest)

/-- Python dict assignment `self.parsed[f] = ...`: replace an existing
binding in place, otherwise append. -/
def registerFile : ParsedMap → String → HForest → ParsedMap
  | [], p, t => [(p, t)]
  | (q, u) :: rest, p, t =>
    if q == p then (p, t) :: rest else (q, u) :: registerFile rest p t

/-- `NginxParser._parse_file` (parser.py:249-262): glob the path
pattern; for every matching file, parse and register its tree; a file
whose load raises IOError or ParseException is logged and skipped, and
the loop continues with the remaining matches. -/
def parse_file (disk : Disk) (segs : List Seg) (st : ParsedMap) : ParsedMap :=
  (disk.filter (fun e => pathMatchesSegs segs e.1)).foldl
    (fun acc e =>
      match e.2 with
      | some t => registerFile acc e.1 t
      | none => acc)
    st

/-- The matches find_dir collects directly under one start expression:
`aug.match (start//*[self::directive=~regexp(dpat)]/arg)` over every
file the expression reaches, in tree order (unreadable or unparseable
files hold no tree and contribute nothing). -/
def directMatches (disk : Disk) (dpat : String) (apat : Option String)
    (segs : List Seg) : List String :=
  (disk.filter (fun e => pathMatchesSegs segs e.1)).flatMap (fun e =>
    match e.2 with
    | some t => forestDirMatches dpat apat t
    | none => [])

/-- The include-directive arguments found under one start expression,
in tree order. -/
def scopeInclArgs (disk : Disk) (segs : List Seg) : List String :=
  (disk.filter (fun e => pathMatchesSegs segs e.1)).flatMap (fun e =>
    match e.2 with
    | some t => forestInclArgs t
    | none => [])

/-- Work items of the linearized find_dir recursion: search a start
scope, or resolve one pending include argument (with the cur_dir that
was current when it was found) and then search it. -/
inductive FdTask where
  | scope (segs : List Seg)
  | incl (curdir : String) (arg : String)
  deriving DecidableEq, Repr

/-- `NginxParser.find_dir` (parser.py:88-154), embedded with explicit
fuel and an explicit work list.  A `scope` task searches every file
matching the start expression: the direct matches are appended to the
accumulator and one `incl` task per include-directive argument is
queued in front of the remaining work — depth first, in
include-directive order, which linearizes exactly the source recursion
`matches.extend(self.find_dir(..., self._get_include_path(
strip_dir(start), aug.get(include))))`, including the point at which
_parse_file (called inside _get_include_path) registers the included
path.  The source recursion carries no visited set, so the fuel is the
only bound; `none` means the fuel ran out, i.e. the recursion did not
complete within that depth. -/
def findDirAux (disk : Disk) (root : String) (dpat : String) (apat : Option String) :
    Nat → List FdTask → List String → ParsedMap → Option (List String × ParsedMap)
  | 0, _, _, _ => none
  | _ + 1, [], acc, st => some (acc, st)
  | fuel + 1, .scope segs :: rest, acc, st =>
    findDirAux disk root dpat apat fuel
      ((scopeInclArgs disk segs).map (FdTask.incl (curDirOf segs)) ++ rest)
      (acc ++ directMatches disk dpat apat segs) st
  | fuel + 1, .incl cur a :: rest, acc, st =>
    let arg := resolveIncludeArg root cur a
    let segs := argToAugSegs arg
    findDirAux disk root dpat apat fuel (.scope segs :: rest) acc (parse_file disk segs st)

/-- Top-level `find_dir` on a start scope. -/
def find_dir (disk : Disk) (root : String) (fuel : Nat) (dpat : String)
    (apat : Option String) (start : List Seg) (st : ParsedMap) :
    Option (List String × ParsedMap) :=
  findDirAux disk root dpat apat fuel [.scope start] [] st

/- ===================================================================
   Part 5: initialization (root location) of the nginx parser.
   =================================================================== -/

/-- Result of a Python operation that may raise. -/
inductive PRes (α : Type) where
  | ok (v : α)
  | err (msg : String)
  deriving DecidableEq, Repr

/-- The loop of `NginxParser._find_config_root` (parser.py:306-315)
over the candidate-name list. -/
def find_config_root_loop (isfile : String → Bool) (root : String) :
    List String → PRes String
  | [] => .err "Could not find configuration root"
  | name :: rest =>
    if isfile (joinPath root name) then .ok (joinPath root name)
    else find_config_root_loop isfile root rest

/-- `_find_config_root`: the candidate list is just nginx.conf; raises
LetsEncryptNoInstallationError when it is absent. -/
def find_config_root (isfile : String → Bool) (root : String) : PRes String :=
  find_config_root_loop isfile root ["nginx.conf"]

/-- The locations record `_set_locations` returns. -/
structure Locs where
  rootLoc : String
  dflt : String
  listen : String
  nameLoc : String
  ssl_options : String
  deriving DecidableEq, Repr

/-- `NginxParser._set_locations` (parser.py:285-304): resolves the
config root (propagating its failure) and the listen/name locations
(ports.conf when present, nginx.conf otherwise). -/
def set_locations (isfile : String → Bool) (rootdir ssl : String) : PRes Locs :=
  match find_config_root isfile rootdir with
  | .err m => .err m
  | .ok root =>
    let dflt := joinPath rootdir "nginx.conf"
    let temp := joinPath rootdir "ports.conf"
    let listen := if isfile temp then temp else dflt
    .ok { rootLoc := root, dflt := dflt, listen := listen,
          nameLoc := listen, ssl_options := ssl }

/-- `NginxParser.__init__` (parser.py:21-29): resolve the locations —
failing loudly when the root configuration file cannot be located —
then parse the root file and sites-available/*.conf.  (`root` is
assumed already absolute, as os.path.abspath leaves absolute paths
unchanged.) -/
def nginxParserInit (disk : Disk) (isfile : String → Bool) (rootdir ssl : String) :
    PRes (Locs × ParsedMap) :=
  match set_locations isfile rootdir ssl with
  | .err m => .err m
  | .ok loc =>
    let st1 := parse_file disk (argToAugSegs loc.rootLoc) []
    let st2 := parse_file disk
      (argToAugSegs (joinPath rootdir "sites-available" ++ "/*.conf")) st1
    .ok (loc, st2)

/- ===================================================================
   Part 6: the Augeas mutation helpers (_get_ifmod, add_dir).  An
   aug.set on a `label[last()+1]` path appends a fresh node with that
   label at the end of the children of the parent; Augeas records the tree
   as modified (the flag that drives aug.save).  A mutation scope is a
   node sequence plus that flag.
   =================================================================== -/

/-- A configuration scope under mutation: the children of the target
Augeas path, plus the Augeas modified flag. -/
structure AugScope where
  nodes : List HNode
  dirty : Bool
  deriving DecidableEq, Repr

/-- 1-based position, among the IfModule-labelled children of a scope,
of the first IfModule owning an arg exactly equal (case-sensitive
string equality, Augeas `self::arg=mod`) to the module token. -/
def ifmodIdxAux : List HNode → Nat → String → Option Nat
  | [], _, _ => none
  | .hsection nm args _ :: rest, k, m =>
    if nm == "IfModule" then
      (if args.contains m then some (k + 1) else ifmodIdxAux rest (k + 1) m)
    else ifmodIdxAux rest k m
  | .directive _ _ :: rest, k, m => ifmodIdxAux rest k m

/-- See `ifmodIdxAux`. -/
def ifmodIdx (nodes : List HNode) (m : String) : Option Nat := ifmodIdxAux nodes 0 m

/-- `NginxParser._get_ifmod` (parser.py:52-67): match
`path/IfModule/*[self::arg=mod]`; when nothing matches, append a fresh
IfModule node and set its arg to mod, then re-match; return the first
match path stripped of its trailing "arg" — here the 1-based IfModule
index standing for ".../IfModule[k]/". -/
def get_ifmod (scope : AugScope) (m : String) : Nat × AugScope :=
  match ifmodIdx scope.nodes m with
  | some k => (k, scope)
  | none =>
    let nodes2 := scope.nodes ++ [.hsection "IfModule" [m] .nil]
    ((ifmodIdx nodes2 m).getD 0, { nodes := nodes2, dirty := true })

/-- `NginxParser.add_dir` (parser.py:69-86): append a directive node
at `path/directive[last()+1]`, set its value to the directive name,
then its args — one `arg[i]` per element, in order, for a list
argument, a single `arg` for a scalar.  aug.set marks the tree
modified. -/
def add_dir (scope : AugScope) (directive : String)
    (arg : Sum String (List String)) : AugScope :=
  { nodes := scope.nodes ++
      [.directive directive (match arg with | .inl v => [v] | .inr l => l)],
    dirty := true }

/- ===================================================================
   Part 7: the apacheconfig ParserNode model
   (certbot_apache/_internal/apacheparser.py).  The class hierarchy
   ParserNode / CommentNode / DirectiveNode / BlockNode becomes one
   tagged type; a Python field that may hold either the PASS sentinel
   string or a real parameter list is a sum.
   =================================================================== -/

/-- Modelled from the spec: the PASS assertion sentinel of
certbot_apache._internal.assertions (that module is not among the
sources); an opaque marker standing for "unknown, assertions pass". -/
def PASS : String := "CERTBOT_PASS_ASSERT"

/-- Modelled from the spec: parsernode_util default for the `dirty`
field of a freshly constructed node (the util module is not among the
sources; per the data model, dirty is set true only by mutation). -/
def defaultDirty : Bool := false

/-- Modelled from the spec: parsernode_util default for the
`enabled` field of a freshly constructed node (enabled=false marks
directives known to be inert; fresh nodes default to enabled). -/
def defaultEnabled : Bool := true

mutual
/-- apacheconfig ParserNode: comment, directive, or block. -/
inductive ApacheNode where
  | comment (ancestor : Option ApacheNode) (filepath : String) (dirty : Bool)
      (metadata : String) (text : String)
  | dirNode (ancestor : Option ApacheNode) (filepath : String) (dirty : Bool)
      (metadata : String) (name : String) (parameters : Sum String (List String))
      (enabled : Bool)
  | blockNode (ancestor : Option ApacheNode) (filepath : String) (dirty : Bool)
      (metadata : String) (name : String) (parameters : Sum String (List String))
      (enabled : Bool) (children : ApacheNodes)
/-- The ordered children tuple of a block. -/
inductive ApacheNodes where
  | nil
  | cons (head : ApacheNode) (tail : ApacheNodes)
end

/-- Length of a children tuple. -/
def apacheLen : ApacheNodes → Nat
  | .nil => 0
  | .cons _ t => apacheLen t + 1

/-- `self.children += (new,)`. -/
def apacheSnoc : ApacheNodes → ApacheNode → ApacheNodes
  | .nil, n => .cons n .nil
  | .cons h t, n => .cons h (apacheSnoc t n)

/-- The `ancestor` field. -/
def ancestorOf : ApacheNode → Option ApacheNode
  | .comment anc _ _ _ _ => anc
  | .dirNode anc _ _ _ _ _ _ => anc
  | .blockNode anc _ _ _ _ _ _ _ => anc

/-- The `metadata` field. -/
def metadataOf : ApacheNode → String
  | .comment _ _ _ md _ => md
  | .dirNode _ _ _ md _ _ _ => md
  | .blockNode _ _ _ md _ _ _ _ => md

/-- The `dirty` field. -/
def dirtyOf : ApacheNode → Bool
  | .comment _ _ d _ _ => d
  | .dirNode _ _ d _ _ _ _ => d
  | .blockNode _ _ d _ _ _ _ _ => d

/-- The `parameters` field (PASS sentinel or real list); a comment has
none. -/
def paramsOf : ApacheNode → Sum String (List String)
  | .comment _ _ _ _ _ => .inl ""
  | .dirNode _ _ _ _ _ ps _ => ps
  | .blockNode _ _ _ _ _ ps _ _ => ps

/-- The `name` field; a comment has none. -/
def nameOf : ApacheNode → String
  | .comment _ _ _ _ _ => ""
  | .dirNode _ _ _ _ nm _ _ => nm
  | .blockNode _ _ _ _ nm _ _ _ => nm

/-- The `children` field of a block. -/
def childrenOf : ApacheNode → ApacheNodes
  | .blockNode _ _ _ _ _ _ _ ch => ch
  | _ => .nil

/-- `ApacheParserNode.find_ancestors` (apacheparser.py:33-39): one
fresh BlockNode with PASS name/parameters/filepath, ancestor = the
receiver, metadata passed through — regardless of the name searched
and of any tree contents. -/
def find_ancestors (self : ApacheNode) (_name : String) : List ApacheNode :=
  [.blockNode (some self) PASS defaultDirty (metadataOf self) PASS (.inl PASS)
    defaultEnabled .nil]

/-- `ApacheBlockNode.find_blocks` (apacheparser.py:146-152): same
shape as find_ancestors. -/
def find_blocks (self : ApacheNode) (_name : String) : List ApacheNode :=
  [.blockNode (some self) PASS defaultDirty (metadataOf self) PASS (.inl PASS)
    defaultEnabled .nil]

/-- `ApacheBlockNode.find_directives` (apacheparser.py:155-161): one
fresh DirectiveNode with PASS fields, ancestor = the receiver. -/
def find_directives (self : ApacheNode) (_name : String) : List ApacheNode :=
  [.dirNode (some self) PASS defaultDirty (metadataOf self) PASS (.inl PASS)
    defaultEnabled]

/-- `ApacheBlockNode.add_child_directive` (apacheparser.py:119-130):
constructs a fresh DirectiveNode whose name and parameters are the
PASS sentinel — the `name` and `parameters` arguments are unused —
appends it to the children tuple and returns it.  Neither the new node
nor the receiver has `dirty` set.  (On a non-block receiver the method
does not exist; the model returns the receiver unchanged.) -/
def add_child_directive (self : ApacheNode) (_name : String)
    (_parameters : Option (List String)) (_position : Option Nat) :
    ApacheNode × ApacheNode :=
  match self with
  | .blockNode anc fp d md nm ps en ch =>
    let newDir : ApacheNode :=
      .dirNode (some self) PASS defaultDirty md PASS (.inl PASS) defaultEnabled
    (newDir, .blockNode anc fp d md nm ps en (apacheSnoc ch newDir))
  | other => (other, other)

/- ===================================================================
   Part 8: theorems about the mutation helpers, the Apache stubs,
   include-path resolution, and initialization.
   =================================================================== -/

theorem ifmodIdxAux_append (l : List HNode) (m : String) :
    ∀ k, ifmodIdxAux l k m = none →
      (ifmodIdxAux (l ++ [HNode.hsection "IfModule" [m] HForest.nil]) k m).isSome
        = true := by
  induction l with
  | nil =>
    intro k _
    simp [ifmodIdxAux, List.contains_cons]
  | cons n rest ih =>
    intro k h
    cases n with
    | directive nm args =>
      simp only [ifmodIdxAux] at h ⊢
      exact ih k h
    | hsection nm args ch =>
      simp only [ifmodIdxAux] at h ⊢
      by_cases hnm : nm == "IfModule"
      · rw [if_pos hnm] at h ⊢
        by_cases hargs : args.contains m
        · rw [if_pos hargs] at h; cases h
        · rw [if_neg hargs] at h ⊢
          exact ih (k + 1) h
      · rw [if_neg hnm] at h ⊢
        exact ih k h

theorem apacheLen_snoc : ∀ (ch : ApacheNodes) (n : ApacheNode),
    apacheLen (apacheSnoc ch n) = apacheLen ch + 1
  | .nil, _ => rfl
  | .cons _ t, n => by simp [apacheSnoc, apacheLen, apacheLen_snoc t n]

/-- C3 (corrected).  `_get_ifmod` is a find-or-create: two successive
calls with the same module token return the same address and the same
scope; the second call never creates a duplicate guard block.  The
child count grows by exactly one in total when no matching guard
exists beforehand, and by zero when one already does (the part of the
claim which held unconditionally fails on a scope that already carries
the guard).  The match on the module token is case-sensitive exact
equality: a guard carrying "MOD_SSL.C" is not reused for
"mod_ssl.c". -/
theorem claim_C3 :
    (∀ (scope : AugScope) (m : String),
      (get_ifmod (get_ifmod scope m).2 m).1 = (get_ifmod scope m).1
      ∧ (get_ifmod (get_ifmod scope m).2 m).2 = (get_ifmod scope m).2
      ∧ (get_ifmod scope m).2.nodes.length =
          scope.nodes.length + (if (ifmodIdx scope.nodes m).isSome then 0 else 1))
    ∧ (get_ifmod ⟨[.hsection "IfModule" ["MOD_SSL.C"] .nil], false⟩
        "mod_ssl.c").2.nodes.length = 2 := by
  refine ⟨?_, by decide⟩
  intro scope m
  cases h : ifmodIdx scope.nodes m with
  | some k =>
    refine ⟨?_, ?_, ?_⟩ <;> simp [get_ifmod, h]
  | none =>
    have h2 : ifmodIdxAux scope.nodes 0 m = none := h
    have hsome := ifmodIdxAux_append scope.nodes m 0 h2
    obtain ⟨k2, hk2⟩ := Option.isSome_iff_exists.mp hsome
    refine ⟨?_, ?_, ?_⟩ <;>
      simp [get_ifmod, ifmodIdx, h, h2, hk2]

/-- C3 counterexample.  On a scope that already carries the matching
guard block (one child), two successive calls leave the child count at
one — not the "exactly one in total" increase the claim asserts for
every scope. -/
theorem claim_C3_counterexample :
    (get_ifmod (get_ifmod ⟨[.hsection "IfModule" ["mod_ssl.c"] .nil], false⟩
        "mod_ssl.c").2 "mod_ssl.c").2.nodes.length = 1
    ∧ ((get_ifmod (get_ifmod ⟨[.hsection "IfModule" ["mod_ssl.c"] .nil], false⟩
        "mod_ssl.c").2 "mod_ssl.c").2.nodes.length ≠ 1 + 1) := by decide

/-- C4 (corrected).  The Augeas-backed nginx `add_dir` behaves as the
claim says: it appends exactly one directive node as the last child,
with the directive name and the parameters taken from the argument —
a scalar becomes a one-element list, a sequence is kept in order — and
the tree is marked modified.  The Apache `add_child_directive`,
however, appends exactly one child but ignores the name and parameters
it was given (the new node carries the PASS sentinel) and does not set
`dirty` on the target block. -/
theorem claim_C4 :
    (∀ (scope : AugScope) (d : String) (arg : Sum String (List String)),
      (add_dir scope d arg).nodes.length = scope.nodes.length + 1
      ∧ (add_dir scope d arg).dirty = true)
    ∧ (∀ (scope : AugScope) (d v : String),
      (add_dir scope d (.inl v)).nodes.getLast? = some (.directive d [v]))
    ∧ (∀ (scope : AugScope) (d : String) (l : List String),
      (add_dir scope d (.inr l)).nodes.getLast? = some (.directive d l))
    ∧ (∀ (anc : Option ApacheNode) (fp : String) (dv : Bool) (md nm : String)
        (ps : Sum String (List String)) (en : Bool) (ch : ApacheNodes)
        (gname : String) (gparams : Option (List String)) (gpos : Option Nat),
      apacheLen (childrenOf
          (add_child_directive (.blockNode anc fp dv md nm ps en ch)
            gname gparams gpos).2) = apacheLen ch + 1
      ∧ dirtyOf (add_child_directive (.blockNode anc fp dv md nm ps en ch)
          gname gparams gpos).2 = dv
      ∧ paramsOf (add_child_directive (.blockNode anc fp dv md nm ps en ch)
          gname gparams gpos).1 = .inl PASS
      ∧ nameOf (add_child_directive (.blockNode anc fp dv md nm ps en ch)
          gname gparams gpos).1 = PASS) := by
  refine ⟨?_, ?_, ?_, ?_⟩
  · intro scope d arg
    exact ⟨by simp [add_dir], rfl⟩
  · intro scope d v
    simp [add_dir]
  · intro scope d l
    simp [add_dir]
  · intro anc fp dv md nm ps en ch gname gparams gpos
    exact ⟨by simp [add_child_directive, childrenOf, apacheLen_snoc],
      rfl, rfl, rfl⟩

/-- C4 counterexample.  Asking the Apache block for a `Listen 443`
child yields a node whose parameters are the PASS sentinel, not
["443"], and leaves the dirty flag of the target block false — the claim
required the parameter list to come from the arguments and dirty to
become true. -/
theorem claim_C4_counterexample :
    paramsOf (add_child_directive
        (.blockNode none "/etc/apache2/sites/a.conf" false "md" "VirtualHost"
          (.inr []) true .nil) "Listen" (some ["443"]) none).1 = .inl PASS
    ∧ paramsOf (add_child_directive
        (.blockNode none "/etc/apache2/sites/a.conf" false "md" "VirtualHost"
          (.inr []) true .nil) "Listen" (some ["443"]) none).1 ≠ .inr ["443"]
    ∧ dirtyOf (add_child_directive
        (.blockNode none "/etc/apache2/sites/a.conf" false "md" "VirtualHost"
          (.inr []) true .nil) "Listen" (some ["443"]) none).2 = false := by
  refine ⟨rfl, by decide, rfl⟩

/-- C10 (confirmed).  The Apache query stubs find_directives,
find_blocks and find_ancestors each return a list with exactly one
newly constructed node whose ancestor is the receiver; they never
return the empty list, whatever name is searched and whatever the
children of the receiver hold. -/
theorem claim_C10 :
    ∀ (self : ApacheNode) (name : String),
      (find_directives self name).length = 1
      ∧ (find_blocks self name).length = 1
      ∧ (find_ancestors self name).length = 1
      ∧ (find_directives self name).head?.map ancestorOf = some (some self)
      ∧ (find_blocks self name).head?.map ancestorOf = some (some self)
      ∧ (find_ancestors self name).head?.map ancestorOf = some (some self)
      ∧ find_directives self name ≠ []
      ∧ find_blocks self name ≠ []
      ∧ find_ancestors self name ≠ [] := by
  intro self name
  refine ⟨rfl, rfl, rfl, rfl, rfl, rfl, ?_, ?_, ?_⟩ <;>
    simp [find_directives, find_blocks, find_ancestors]

/-- C5 (code bug).  Include-argument resolution collapses to: absolute
arguments are kept, every other argument — including the "conf/"
server-root form the comment in the code promises to rewrite against
the server root — is resolved relative to the including directory.
The `elif arg.startswith("conf/")` branch is unreachable because a
"conf/..." argument does not start with "/".  At the failing input the
result is the cur_dir-relative path, not the documented
root-relative "/srv/nginx/extra.conf". -/
theorem claim_C5 :
    (∀ (root cur arg : String),
      resolveIncludeArg root cur arg =
        if strStartsWith arg "/" then arg else cur ++ arg)
    ∧ resolveIncludeArg "/srv/nginx" "/etc/nginx/sites/" "conf/extra.conf"
        = "/etc/nginx/sites/conf/extra.conf"
    ∧ resolveIncludeArg "/srv/nginx" "/etc/nginx/sites/" "conf/extra.conf"
        ≠ "/srv/nginx/extra.conf" := by
  refine ⟨?_, by decide, by decide⟩
  intro root cur arg
  by_cases h : strStartsWith arg "/"
  · have hconf : strStartsWith arg "conf/" = false := by
      rw [strStartsWith] at h ⊢
      cases harg : arg.data with
      | nil =>
        rw [harg, show ("/".data) = ['/'] from rfl] at h
        simp [chLeads] at h
      | cons c rest =>
        rw [harg, show ("/".data) = ['/'] from rfl] at h
        rw [show ("conf/".data) = ['c', 'o', 'n', 'f', '/'] from rfl]
        simp [chLeads] at h
        subst h
        rfl
    simp [resolveIncludeArg, h, hconf]
  · simp [resolveIncludeArg, h]

/-- C7 (confirmed).  Initialization first resolves the root
configuration file: when `rootdir/nginx.conf` is absent the whole
initialization returns the explicit "Could not find configuration
root" error (LetsEncryptNoInstallationError), and when it is present
initialization succeeds with that file as the root location,
whatever the rest of the disk holds. -/
theorem claim_C7 :
    ∀ (disk : Disk) (isfile : String → Bool) (rootdir ssl : String),
      nginxParserInit disk isfile rootdir ssl =
        if isfile (joinPath rootdir "nginx.conf") then
          PRes.ok
            ({ rootLoc := joinPath rootdir "nginx.conf",
               dflt := joinPath rootdir "nginx.conf",
               listen := if isfile (joinPath rootdir "ports.conf")
                 then joinPath rootdir "ports.conf"
                 else joinPath rootdir "nginx.conf",
               nameLoc := if isfile (joinPath rootdir "ports.conf")
                 then joinPath rootdir "ports.conf"
                 else joinPath rootdir "nginx.conf",
               ssl_options := ssl },
             parse_file disk
               (argToAugSegs (joinPath rootdir "sites-available" ++ "/*.conf"))
               (parse_file disk (argToAugSegs (joinPath rootdir "nginx.conf")) []))
        else PRes.err "Could not find configuration root" := by
  intro disk isfile rootdir ssl
  by_cases h : isfile (joinPath rootdir "nginx.conf") <;>
    simp [nginxParserInit, set_locations, find_config_root,
      find_config_root_loop, h]

/- ===================================================================
   Part 9: concrete configurations and the search/expansion theorems.
   =================================================================== -/

/-- Convenience constructor for node sequences. -/
def HForest.ofList : List HNode → HForest
  | [] => .nil
  | n :: rest => .cons n (ofList rest)

/-- The scenario of the spec: nginx.conf includes sites-available/*.conf,
which expands to a.conf (server_name foo) and b.conf (server_name bar). -/
def disk9 : Disk :=
  [("/etc/nginx/nginx.conf",
     some (HForest.ofList [.directive "include" ["sites-available/*.conf"]])),
   ("/etc/nginx/sites-available/a.conf",
     some (HForest.ofList [.directive "server_name" ["foo"]])),
   ("/etc/nginx/sites-available/b.conf",
     some (HForest.ofList [.directive "server_name" ["bar"]]))]

/-- The registered map after expanding disk9 from the root file. -/
def disk9Parsed : ParsedMap :=
  [("/etc/nginx/sites-available/a.conf",
     HForest.ofList [.directive "server_name" ["foo"]]),
   ("/etc/nginx/sites-available/b.conf",
     HForest.ofList [.directive "server_name" ["bar"]])]

/-- A root with one direct match and two explicit includes, listed in
non-alphabetical order to expose include-directive order. -/
def disk9b : Disk :=
  [("/etc/nginx/nginx.conf",
     some (HForest.ofList
       [.directive "server_name" ["direct0"],
        .directive "include" ["/etc/nginx/b2.conf"],
        .directive "include" ["/etc/nginx/a1.conf"]])),
   ("/etc/nginx/a1.conf",
     some (HForest.ofList [.directive "server_name" ["foo1"]])),
   ("/etc/nginx/b2.conf",
     some (HForest.ofList [.directive "server_name" ["bar2"]]))]

/-- A configuration whose only directive is lower-case `listen`. -/
def diskC2 : Disk :=
  [("/e/nginx.conf", some (HForest.ofList [.directive "listen" ["443"]]))]

/-- Case variants spread over the root file and an included file. -/
def diskC2b : Disk :=
  [("/e/nginx.conf",
     some (HForest.ofList
       [.directive "LISTEN" ["443"],
        .directive "Include" ["/e/sub.conf"]])),
   ("/e/sub.conf", some (HForest.ofList [.directive "listen" ["8443"]]))]

/-- Three included files, the middle one unreadable/unparseable. -/
def disk6 : Disk :=
  [("/f/nginx.conf",
     some (HForest.ofList
       [.directive "include" ["/f/one.conf"],
        .directive "include" ["/f/two.conf"],
        .directive "include" ["/f/three.conf"]])),
   ("/f/one.conf", some (HForest.ofList [.directive "server_name" ["one"]])),
   ("/f/two.conf", none),
   ("/f/three.conf", some (HForest.ofList [.directive "server_name" ["three"]]))]

/-- A two-file include cycle. -/
def diskCyc : Disk :=
  [("/c/a.conf", some (HForest.ofList [.directive "include" ["/c/b.conf"]])),
   ("/c/b.conf", some (HForest.ofList [.directive "include" ["/c/a.conf"]]))]

theorem findDirAux_acc_prefix (disk : Disk) (root dpat : String)
    (apat : Option String) :
    ∀ (fuel : Nat) (tasks : List FdTask) (acc : List String) (st : ParsedMap)
      (ms : List String) (st2 : ParsedMap),
      findDirAux disk root dpat apat fuel tasks acc st = some (ms, st2) →
      ∃ tail, ms = acc ++ tail := by
  intro fuel
  induction fuel with
  | zero => intro tasks acc st ms st2 h; cases h
  | succ fuel ih =>
    intro tasks acc st ms st2 h
    match tasks with
    | [] =>
      simp only [findDirAux, Option.some.injEq, Prod.mk.injEq] at h
      exact ⟨[], by simp [← h.1]⟩
    | .scope segs :: rest =>
      simp only [findDirAux] at h
      obtain ⟨tail2, ht⟩ := ih _ _ _ _ _ h
      exact ⟨directMatches disk dpat apat segs ++ tail2, by simp [ht]⟩
    | .incl cur a :: rest =>
      simp only [findDirAux] at h
      exact ih _ _ _ _ _ h

/-- C9 (confirmed).  Every successful search lists the matches found
directly under the start scope first (a prefix of the result), and the
include-derived matches after them; in the scenario of the spec — root
including sites-available/*.conf holding a.conf (server_name foo) and
b.conf (server_name bar) — the search returns exactly the two matches
in the order foo then bar, and with two explicit include directives
listed out of alphabetical order the include-derived matches follow
include-directive order after the direct match. -/
theorem claim_C9 :
    (∀ (disk : Disk) (root : String) (fuel : Nat) (dpat : String)
        (apat : Option String) (start : List Seg) (st : ParsedMap)
        (ms : List String) (st2 : ParsedMap),
      find_dir disk root fuel dpat apat start st = some (ms, st2) →
      ∃ tail, ms = directMatches disk dpat apat start ++ tail)
    ∧ (find_dir disk9 "/etc/nginx" 10 "server_name" none
        (argToAugSegs "/etc/nginx/nginx.conf") []).map Prod.fst
      = some ["foo", "bar"]
    ∧ (find_dir disk9b "/etc/nginx" 10 "server_name" none
        (argToAugSegs "/etc/nginx/nginx.conf") []).map Prod.fst
      = some ["direct0", "bar2", "foo1"] := by
  refine ⟨?_, by decide, by decide⟩
  intro disk root fuel dpat apat start st ms st2 h
  match fuel with
  | 0 => cases h
  | fuel + 1 =>
    rw [find_dir] at h
    simp only [findDirAux] at h
    obtain ⟨tail, ht⟩ := findDirAux_acc_prefix disk root dpat apat _ _ _ _ _ _ h
    exact ⟨tail, by simpa using ht⟩

theorem claim_C9_witness :
    ∃ tail, ["foo", "bar"] =
      directMatches disk9 "server_name" none
        (argToAugSegs "/etc/nginx/nginx.conf") ++ tail :=
  claim_C9.1 disk9 "/etc/nginx" 10 "server_name" none
    (argToAugSegs "/etc/nginx/nginx.conf") [] ["foo", "bar"] disk9Parsed
    (by decide)

/-- C2 counterexample.  find_dir applies the directive pattern it is
handed verbatim: on a configuration whose only directive is lower-case
`listen 443`, searching with the name "Listen" returns no match while
searching with "listen" returns the directive — the search that
matches a directive named n does not, by itself, match case
variants of the name. -/
theorem claim_C2_counterexample :
    (find_dir diskC2 "/e" 10 "Listen" none
      (argToAugSegs "/e/nginx.conf") []).map Prod.fst = some []
    ∧ (find_dir diskC2 "/e" 10 "listen" none
      (argToAugSegs "/e/nginx.conf") []).map Prod.fst = some ["443"] := by
  exact ⟨by decide, by decide⟩

/-- C2 (corrected).  find_dir matches directive names by anchored
regex comparison of the pattern it is given (its docstring requires
the caller to pass a case-insensitive regex).  When invoked with the
documented pattern case_i(n), it matches exactly the case variants of
n: the pattern accepts a name v precisely when v is a per-character
case variant of n; and in a configuration carrying `LISTEN 443` in
the start scope and `listen 8443` behind an include, searching with
case_i("Listen") finds both. -/
theorem claim_C2 :
    (∀ n v : String, reMatch (case_i n) v = true ↔ caseVariant n v)
    ∧ (find_dir diskC2b "/e" 10 (case_i "Listen") none
        (argToAugSegs "/e/nginx.conf") []).map Prod.fst
      = some ["443", "8443"] := by
  exact ⟨fun n v => reMatch_case_i n v, by decide⟩

theorem parse_file_skips (pre post : Disk) (badp : String) (segs : List Seg)
    (st : ParsedMap) :
    parse_file (pre ++ (badp, none) :: post) segs st
      = parse_file (pre ++ post) segs st := by
  simp only [parse_file, List.filter_append, List.filter_cons]
  by_cases h : pathMatchesSegs segs badp
  · simp [h, List.foldl_append]
  · simp [h]

/-- C6 (confirmed).  A file whose load fails is skipped without
aborting the pass: removing a failing entry from the disk does not
change what _parse_file registers (general), and in a configuration
whose root includes three files of which the middle one is unreadable,
the other two are registered — the failing path is absent from the
path-to-tree mapping — and their directives are still found by the
subsequent search, in order. -/
theorem claim_C6 :
    (∀ (pre post : Disk) (badp : String) (segs : List Seg) (st : ParsedMap),
      parse_file (pre ++ (badp, none) :: post) segs st
        = parse_file (pre ++ post) segs st)
    ∧ find_dir disk6 "/f" 10 "server_name" none
        (argToAugSegs "/f/nginx.conf") []
      = some (["one", "three"],
          [("/f/one.conf", HForest.ofList [.directive "server_name" ["one"]]),
           ("/f/three.conf", HForest.ofList [.directive "server_name" ["three"]])]) := by
  exact ⟨parse_file_skips, by decide⟩

theorem findDir_cyc_none : ∀ fuel : Nat,
    (∀ (acc : List String) (st : ParsedMap),
      findDirAux diskCyc "/c" "server_name" none fuel
        [.scope (argToAugSegs "/c/a.conf")] acc st = none)
    ∧ (∀ (acc : List String) (st : ParsedMap),
      findDirAux diskCyc "/c" "server_name" none fuel
        [.incl "/c/" "/c/b.conf"] acc st = none)
    ∧ (∀ (acc : List String) (st : ParsedMap),
      findDirAux diskCyc "/c" "server_name" none fuel
        [.scope (argToAugSegs "/c/b.conf")] acc st = none)
    ∧ (∀ (acc : List String) (st : ParsedMap),
      findDirAux diskCyc "/c" "server_name" none fuel
        [.incl "/c/" "/c/a.conf"] acc st = none) := by
  intro fuel
  induction fuel with
  | zero => exact ⟨fun _ _ => rfl, fun _ _ => rfl, fun _ _ => rfl, fun _ _ => rfl⟩
  | succ fuel ih =>
    refine ⟨fun acc st => ?_, fun acc st => ?_, fun acc st => ?_, fun acc st => ?_⟩
    · rw [show findDirAux diskCyc "/c" "server_name" none (fuel + 1)
          [.scope (argToAugSegs "/c/a.conf")] acc st
        = findDirAux diskCyc "/c" "server_name" none fuel
          [.incl "/c/" "/c/b.conf"]
          (acc ++ directMatches diskCyc "server_name" none (argToAugSegs "/c/a.conf")) st
        from rfl]
      exact ih.2.1 _ _
    · rw [show findDirAux diskCyc "/c" "server_name" none (fuel + 1)
          [.incl "/c/" "/c/b.conf"] acc st
        = findDirAux diskCyc "/c" "server_name" none fuel
          [.scope (argToAugSegs "/c/b.conf")] acc
          (parse_file diskCyc (argToAugSegs "/c/b.conf") st)
        from rfl]
      exact ih.2.2.1 _ _
    · rw [show findDirAux diskCyc "/c" "server_name" none (fuel + 1)
          [.scope (argToAugSegs "/c/b.conf")] acc st
        = findDirAux diskCyc "/c" "server_name" none fuel
          [.incl "/c/" "/c/a.conf"]
          (acc ++ directMatches diskCyc "server_name" none (argToAugSegs "/c/b.conf")) st
        from rfl]
      exact ih.2.2.2 _ _
    · rw [show findDirAux diskCyc "/c" "server_name" none (fuel + 1)
          [.incl "/c/" "/c/a.conf"] acc st
        = findDirAux diskCyc "/c" "server_name" none fuel
          [.scope (argToAugSegs "/c/a.conf")] acc
          (parse_file diskCyc (argToAugSegs "/c/a.conf") st)
        from rfl]
      exact ih.1 _ _

/-- C8 counterexample.  On the two-file include cycle the search never
completes: no amount of fuel makes the recursion return — the code has
no registered-file fixpoint check, so include expansion does not
terminate for every configuration. -/
theorem claim_C8_counterexample :
    ¬ ∃ (fuel : Nat) (res : List String × ParsedMap),
      find_dir diskCyc "/c" fuel "server_name" none
        (argToAugSegs "/c/a.conf") [] = some res := by
  rintro ⟨fuel, res, h⟩
  rw [find_dir, (findDir_cyc_none fuel).1 [] []] at h
  cases h

/-- C8 (corrected).  find_dir recurses on every include directive with
no visited set and no fixpoint pass: on a cyclic configuration the
expansion never terminates (for every fuel bound it is still running).
On an acyclic configuration it terminates, and because registration is
an idempotent overwrite, running the expansion again from the
registered state registers zero new files: it returns the same matches
and exactly the same registered map. -/
theorem claim_C8 :
    (∀ fuel : Nat, find_dir diskCyc "/c" fuel "server_name" none
      (argToAugSegs "/c/a.conf") [] = none)
    ∧ find_dir disk9 "/etc/nginx" 10 "server_name" none
        (argToAugSegs "/etc/nginx/nginx.conf") []
      = some (["foo", "bar"], disk9Parsed)
    ∧ find_dir disk9 "/etc/nginx" 10 "server_name" none
        (argToAugSegs "/etc/nginx/nginx.conf") disk9Parsed
      = some (["foo", "bar"], disk9Parsed) := by
  exact ⟨fun fuel => (findDir_cyc_none fuel).1 [] [], by decide, by decide⟩
